import Mathlib

/-!
Verification of the piecewise exponential regression fitter
(`lifelines/fitters/piecewise_exponential_regression_fitter.py`).

The numeric core (hazards, likelihood, predictions) is embedded over `ℝ`;
the breakpoint bookkeeping of the constructor is embedded over `WithTop ℚ`,
where `⊤` models the floating-point infinity `np.inf` (for a finite time
`t`, `min ∞ t = t`, and `∞` sorts after every finite value, exactly as
`np.sort` places `np.inf` last).
-/

/-- Extended rationals modelling floating-point values together with
`np.inf` (`⊤`). -/
abbrev XRat := WithTop ℚ

/-- Embedding of `PiecewiseExponentialRegressionFitter.__init__`
(lines 99-110).  `np.sort` is modelled by insertion sort (the code only
depends on the result being a sorted permutation).  The code first sorts,
then raises `ValueError` when the largest sorted value is not `< np.inf`,
then raises `ValueError` when the smallest sorted value is `< 0`; otherwise
it stores the sorted values with `np.inf` appended
(`self.breakpoints = np.append(breakpoints, [np.inf])`).  The `getLastD` /
`headD` defaults are irrelevant: both accesses are guarded by
`0 < breakpoints.length`. -/
def initBreakpoints (input : List XRat) : Except String (List XRat) :=
  let breakpoints := List.insertionSort (· ≤ ·) input
  if 0 < breakpoints.length ∧ ¬ breakpoints.getLastD ⊤ < ⊤ then
    Except.error "Do not add inf to the breakpoints."
  else if 0 < breakpoints.length ∧ breakpoints.headD ⊤ < ((0 : ℚ) : XRat) then
    Except.error "First breakpoint must be greater than 0."
  else
    Except.ok (breakpoints ++ [⊤])

/-- `self.n_breakpoints = len(self.breakpoints)` (line 110): the number of
stored boundaries, which is also the number of hazard segments. -/
def n_breakpoints (stored : List XRat) : ℕ := stored.length

/-- The breakpoint argument `self.breakpoints[:-1]` passed to the null-model
constructor inside the `_ll_null` property (line 432). -/
def nullModelBreakpointsArg (stored : List XRat) : List XRat := stored.dropLast

/-- The likelihood-ratio statistic `2 * ll_alt - 2 * ll_null` computed by
`_compute_likelihood_ratio_test` (line 450). -/
def computeLRTstat (llAlt llNull : ℝ) : ℝ := 2 * llAlt - 2 * llNull

/-- The degrees of freedom `self.params_.shape[0] - 2` used by
`_compute_likelihood_ratio_test` (line 451), as an integer in the number of
fitted parameters. -/
def degreesFreedom (nParams : ℕ) : ℤ := (nParams : ℤ) - 2

/-- The lazy caching discipline of the `_ll_null` property (lines 425-436):
given the current cache (`some v` when `self._ll_null_` is present) and the
value the expensive null refit would produce, return the value served to the
caller together with the new cache state. -/
def llNullAccess (cached : Option ℝ) (refitValue : ℝ) : ℝ × Option ℝ :=
  match cached with
  | some v => (v, some v)
  | none => (refitValue, some refitValue)

-- ## The numeric core, over `ℝ`
--
-- In this part a fitted model is described by the user-supplied (finite,
-- sorted) breakpoints `bp : List ℝ`, the flat parameter vector
-- `params : List ℝ`, and the covariate count `d`.  The stored breakpoint
-- array of the fitter is `bp ++ [np.inf]`; since every time value `t` is
-- finite, `min np.inf t = t`, which is how the sentinel column appears
-- below.

/-- `np.dot` of two vectors. -/
def dot (x y : List ℝ) : ℝ := (List.zipWith (· * ·) x y).sum

/-- The parameter block `params[_LOOKUP_SLICE["lambda_i_"]]`: `_create_slicer`
(lines 360-368) maps segment `i` of a model with `d` covariate columns to
`slice(i*d, (i+1)*d)`. -/
def paramSlice (params : List ℝ) (d i : ℕ) : List ℝ := (params.drop (i * d)).take d

/-- The per-segment rate `exp(-np.dot(X, params[slice_i]))` of
`_cumulative_hazard` (line 124) for one covariate row. -/
noncomputable def segmentRate (params : List ℝ) (d i : ℕ) (x : List ℝ) : ℝ :=
  Real.exp (-(dot x (paramSlice params d i)))

/-- All `n_breakpoints` per-segment rates of one covariate row (the column of
`lambdas_` belonging to that row, lines 123-125). -/
noncomputable def ratesRow (params : List ℝ) (d k : ℕ) (x : List ℝ) : List ℝ :=
  (List.range k).map (fun i => segmentRate params d i x)

/-- One row of the exposure matrix `M` of `_cumulative_hazard`
(lines 121-122) and of `predict_cumulative_hazard` (lines 650-651):
`M = np.minimum(bp_extended, t)` followed by
`np.hstack([M[:, [0]], np.diff(M, axis=1)])`, where
`bp_extended = bp ++ [np.inf]` and `min np.inf t = t` for the finite `t`.
The `headD` default is irrelevant: the list ends with `[t]`, so it is never
empty. -/
noncomputable def exposures (bp : List ℝ) (t : ℝ) : List ℝ :=
  let M := bp.map (fun b => min b t) ++ [t]
  M.headD 0 :: List.zipWith (fun a b => b - a) M M.tail

/-- The index of the hazard segment containing `t`: the class docstring
(lines 48-53) sets `h(t) = 1/λ_j` on `τ_(j-1) < t ≤ τ_j`, so the active
segment index is the number of breakpoints strictly below `t`. -/
noncomputable def activeSegmentIndex (bp : List ℝ) (t : ℝ) : ℕ :=
  bp.countP (fun b => decide (b < t))

/-- The instantaneous hazard `self._hazard = egrad(self._cumulative_hazard,
argnum=1)` (line 112): at any non-boundary `t` the elementwise derivative of
the cumulative hazard with respect to `t` is the rate of the unique segment
containing `t`; at a breakpoint the docstring convention (segment
`τ_(j-1) < t ≤ τ_j`) applies. -/
noncomputable def hazard (bp params : List ℝ) (d : ℕ) (t : ℝ) (x : List ℝ) : ℝ :=
  segmentRate params d (activeSegmentIndex bp t) x

/-- `_log_hazard` (lines 128-132): the hazard is clipped to
`[1e-20, np.inf)` before the logarithm (`np.clip(hz, 1e-20, np.inf)` is
`max hz 1e-20` for finite `hz`). -/
noncomputable def log_hazard (bp params : List ℝ) (d : ℕ) (t : ℝ) (x : List ℝ) : ℝ :=
  Real.log (max (hazard bp params d t x) 1e-20)

/-- `_cumulative_hazard` (lines 117-126): the `n × k` matrix `M * lambdas_.T`
whose row for observation `(t, x)` holds the per-segment exposure times the
per-segment rate. -/
noncomputable def cumulative_hazard (bp params : List ℝ) (d : ℕ)
    (T : List ℝ) (X : List (List ℝ)) : List (List ℝ) :=
  (T.zip X).map (fun p =>
    List.zipWith (· * ·) (exposures bp p.1) (ratesRow params d (bp.length + 1) p.2))

/-- Boolean-mask indexing `arr[E]` of numpy, used as `W[E]`, `T[E]`,
`X[E, :]` in `_negative_log_likelihood` (line 136). -/
def maskFilter {α : Type} : List α → List Bool → List α
  | [], _ => []
  | _ :: _, [] => []
  | a :: l, e :: E => if e then a :: maskFilter l E else maskFilter l E

/-- `np.ndarray.var()` with its default `ddof=0`: the mean squared deviation
from the mean. -/
noncomputable def listVar (l : List ℝ) : ℝ :=
  ((l.map (fun x => (x - l.sum / l.length) ^ 2)).sum) / l.length

/-- The strided slice `params[i::step]` of numpy, for `0 ≤ i < step`
(applied to `params.drop i`). -/
def everyNth {α : Type} (step : ℕ) : List α → List α
  | [] => []
  | a :: l => a :: everyNth step (List.drop (step - 1) l)
termination_by l => l.length
decreasing_by simp [List.length_drop]; omega

/-- The `coef_penalty` accumulated by `_negative_log_likelihood`
(lines 140-142): the sum over the `d` covariate columns of the variance of
`params[i::d]`, the per-segment coefficients of column `i`. -/
noncomputable def coefPenalty (params : List ℝ) (d : ℕ) : ℝ :=
  ((List.range d).map (fun i => listVar (everyNth d (params.drop i)))).sum

/-- `_negative_log_likelihood` (lines 134-147).  `ll` is the masked
log-hazard sum minus `(W[:, None] * cumulative_hazard).sum()`, divided by
`W.sum()`; the penalty branch is taken only when `penalizer > 0`. -/
noncomputable def negative_log_likelihood (bp : List ℝ) (penalizer : ℝ) (d : ℕ)
    (params T : List ℝ) (E : List Bool) (W : List ℝ) (X : List (List ℝ)) : ℝ :=
  let eventTerm := (List.zipWith (fun w p => w * log_hazard bp params d p.1 p.2)
      (maskFilter W E) ((maskFilter T E).zip (maskFilter X E))).sum
  let cumTerm := (List.zipWith (fun w row => (row.map (fun v => w * v)).sum)
      W (cumulative_hazard bp params d T X)).sum
  let coef_penalty := if 0 < penalizer then coefPenalty params d else 0
  let negLL := -((eventTerm - cumTerm) / W.sum)
  negLL + penalizer * coef_penalty

-- ### The specification's reading of the likelihood

/-- The cumulative hazard `H(t, x) = Σ_i e_i(t) · rate_i(x)` of one
observation, as written in the specification (section 4.2). -/
noncomputable def cumulative_hazard_at (bp params : List ℝ) (d : ℕ)
    (t : ℝ) (x : List ℝ) : ℝ :=
  (List.zipWith (· * ·) (exposures bp t) (ratesRow params d (bp.length + 1) x)).sum

/-- Column `i` of the parameter matrix: the per-segment coefficients of
covariate `i`, extracted by direct indexing of the flat vector. -/
noncomputable def paramColumn (params : List ℝ) (d k i : ℕ) : List ℝ :=
  (List.range k).map (fun j => params.getD (j * d + i) 0)

/-- The claim's `mean_segment_variance`: the mean over covariate columns of
the variance of that column's per-segment coefficients. -/
noncomputable def mean_segment_variance (params : List ℝ) (d k : ℕ) : ℝ :=
  (((List.range d).map (fun i => listVar (paramColumn params d k i))).sum) / d

/-- The total (sum) over covariate columns of the variance of that column's
per-segment coefficients — what the code actually accumulates. -/
noncomputable def sum_segment_variance (params : List ℝ) (d k : ℕ) : ℝ :=
  ((List.range d).map (fun i => listVar (paramColumn params d k i))).sum

/-- The negative log-likelihood exactly as the claim states it:
`-[ Σ_{i: event_i} w_i·log h(T_i, X_i) - Σ_i w_i·H(T_i, X_i) ] / Σ w_i
+ penalizer · mean_segment_variance(β)`, with the plain (unclipped) hazard
inside the logarithm. -/
noncomputable def NLL_spec_claimed (bp : List ℝ) (penalizer : ℝ) (d : ℕ)
    (params T : List ℝ) (E : List Bool) (W : List ℝ) (X : List (List ℝ)) : ℝ :=
  let n := T.length
  let eventSum := ((List.range n).map (fun i =>
      if E.getD i false then
        W.getD i 0 * Real.log (hazard bp params d (T.getD i 0) (X.getD i []))
      else 0)).sum
  let cumSum := ((List.range n).map (fun i =>
      W.getD i 0 * cumulative_hazard_at bp params d (T.getD i 0) (X.getD i []))).sum
  let negLL := -((eventSum - cumSum) / W.sum)
  negLL + penalizer * mean_segment_variance params d (bp.length + 1)

/-- The claim's formula amended to what the code computes: the penalty is
`penalizer` times the SUM over covariate columns of the per-segment
coefficient variances, and the log-hazard term uses the hazard clipped below
at `1e-20`. -/
noncomputable def NLL_spec_amended (bp : List ℝ) (penalizer : ℝ) (d : ℕ)
    (params T : List ℝ) (E : List Bool) (W : List ℝ) (X : List (List ℝ)) : ℝ :=
  let n := T.length
  let eventSum := ((List.range n).map (fun i =>
      if E.getD i false then
        W.getD i 0 *
          Real.log (max (hazard bp params d (T.getD i 0) (X.getD i [])) 1e-20)
      else 0)).sum
  let cumSum := ((List.range n).map (fun i =>
      W.getD i 0 * cumulative_hazard_at bp params d (T.getD i 0) (X.getD i []))).sum
  let negLL := -((eventSum - cumSum) / W.sum)
  negLL + penalizer * sum_segment_variance params d (bp.length + 1)

-- ### Closed-form quantities for the single-segment model

/-- `Σ(events · weights)`: the total weight of the observed events. -/
def weightedEventSum (W : List ℝ) (E : List Bool) : ℝ := (maskFilter W E).sum

/-- `Σ(durations · weights)`. -/
def weightedDurationSum (T W : List ℝ) : ℝ := (List.zipWith (· * ·) T W).sum

-- ### `_fit_model` and the convergence error

/-- The result object returned by `scipy.optimize.minimize`, which is an
external collaborator: only the fields `_fit_model` reads. -/
structure OptimizerResult where
  success : Bool
  x : List ℝ
  objective : ℝ

/-- The `ConvergenceError` message built in `_fit_model` (lines 347-358),
with the class name interpolated for `%s`. -/
def convergence_error_message (name : String) : String :=
  "Fitting did not converge. This could be a problem with your data:\n" ++
  "1. Does a column have extremely high mean or variance? Try standardizing it.\n" ++
  "2. Are there any extreme outliers? Try modeling them or dropping them to see if it helps convergence\n" ++
  "3. Trying adding a small penalizer (or changing it, if already present). Example: " ++
  name ++ "(penalizer=0.01).fit(...)\n"

/-- The tail of `_fit_model` (lines 338-358) after the single
`scipy.optimize.minimize` call: on success it returns
`(results.x, -sum_weights * results.fun, sum_weights * hessian(results.x))`;
otherwise it raises `ConvergenceError`.  The optimizer is invoked exactly
once per fit — this embedding consumes a single `OptimizerResult`. -/
def fit_model (sumWeights : ℝ) (name : String)
    (hessianAtMin : List ℝ → List (List ℝ)) (results : OptimizerResult) :
    Except String (List ℝ × ℝ × List (List ℝ)) :=
  if results.success then
    Except.ok (results.x, -sumWeights * results.objective,
      (hessianAtMin results.x).map (fun row => row.map (fun v => sumWeights * v)))
  else
    Except.error (convergence_error_message name)

-- ### `_compute_variance_matrix`

/-- `self._norm_std`: the per-covariate normalization scale repeated once
per segment, `np.concatenate([_norm_std.values] * self.n_breakpoints)`
(line 295). -/
def norm_std_repeated (sigma : List ℝ) (k : ℕ) : List ℝ :=
  (List.replicate k sigma).flatten

open Classical in
/-- `_compute_variance_matrix` (lines 370-386): `np.linalg.inv` succeeds
exactly on matrices with invertible determinant (otherwise it raises
`LinAlgError` and the `except` branch substitutes `np.linalg.pinv`, an
external numerical primitive passed here as `pinvHessian`); the result is
divided elementwise by `np.outer(norm_std, norm_std)`.  The function is
total: the singular case still produces a matrix, so fitting proceeds. -/
noncomputable def compute_variance_matrix {m : ℕ}
    (hessian pinvHessian : Matrix (Fin m) (Fin m) ℝ) (normStd : Fin m → ℝ) :
    Matrix (Fin m) (Fin m) ℝ :=
  let unitScaled := if IsUnit hessian.det then hessian⁻¹ else pinvHessian
  Matrix.of (fun i j => unitScaled i j / (normStd i * normStd j))

/-- The non-fatal `StatisticalWarning` of `_compute_variance_matrix` is
emitted exactly when `np.linalg.inv` raised, i.e. when the Hessian is
singular. -/
def hessian_singular_warning {m : ℕ} (hessian : Matrix (Fin m) (Fin m) ℝ) : Prop :=
  ¬ IsUnit hessian.det

-- ### Prediction

/-- `_prep_inputs_for_prediction_and_return_parameters` (lines 787-795): the
per-segment factors `np.exp(np.dot(X, params["lambda_i_"]))` of one subject
row. -/
noncomputable def prep_lambdas (params : List ℝ) (d k : ℕ) (x : List ℝ) : List ℝ :=
  (List.range k).map (fun i => Real.exp (dot x (paramSlice params d i)))

/-- `predict_cumulative_hazard` (lines 619-653): the table
`np.dot(M, 1 / lambdas_)` with one row per requested time and one column per
subject. -/
noncomputable def predict_cumulative_hazard (bp params : List ℝ) (d : ℕ)
    (X : List (List ℝ)) (times : List ℝ) : List (List ℝ) :=
  times.map (fun t => X.map (fun x =>
    (List.zipWith (fun m lam => m * (1 / lam)) (exposures bp t)
      (prep_lambdas params d (bp.length + 1) x)).sum))

/-- `predict_survival_function` (lines 536-563):
`np.exp(-self.predict_cumulative_hazard(X, times))`. -/
noncomputable def predict_survival_function (bp params : List ℝ) (d : ℕ)
    (X : List (List ℝ)) (times : List ℝ) : List (List ℝ) :=
  (predict_cumulative_hazard bp params d X times).map
    (fun row => row.map (fun v => Real.exp (-v)))

/-- The exposure matrix rows built at fit time inside `_cumulative_hazard`
(lines 121-122), one row per training duration. -/
noncomputable def fit_exposure_rows (bp : List ℝ) (T : List ℝ) : List (List ℝ) :=
  T.map (exposures bp)

/-- The exposure matrix rows built at prediction time inside
`predict_cumulative_hazard` (lines 650-651), one row per requested time. -/
noncomputable def predict_exposure_rows (bp : List ℝ) (times : List ℝ) : List (List ℝ) :=
  times.map (exposures bp)

/-- Modelled from the spec: `qth_survival_times` (imported from
`lifelines.utils`, which is not under `src/`) applied to one subject's
tabulated survival curve, a list of `(time, survival)` pairs with increasing
times and non-increasing survival.  Per the spec (section 4.6) it locates
the smallest time at which survival falls to or below the target level `q`,
interpolating linearly between tabulated times when `q` falls strictly
between two grid points, and yields `+infinity` — modelled as `none` — when
the curve never falls to or below `q` within the available timeline. -/
noncomputable def qth_survival_time (q : ℝ) : List (ℝ × ℝ) → Option ℝ
  | [] => none
  | [(t, s)] => if s ≤ q then some t else none
  | (t0, s0) :: (t1, s1) :: rest =>
    if s0 ≤ q then some t0
    else if s1 ≤ q then some (t0 + (t1 - t0) * (s0 - q) / (s0 - s1))
    else qth_survival_time q ((t1, s1) :: rest)

/-- `predict_percentile` (lines 592-617) for one subject: it passes `p` and
the subject's predicted survival curve to `qth_survival_times`, locating per
the spec the smallest time at which survival falls to or below `1 - p`. -/
noncomputable def predict_percentile_subject (p : ℝ) (curve : List (ℝ × ℝ)) : Option ℝ :=
  qth_survival_time (1 - p) curve

/-- The smallest tabulated grid point at which survival has fallen to or
below `q` (time and survival value), when one exists. -/
noncomputable def firstCrossing (q : ℝ) (curve : List (ℝ × ℝ)) : Option (ℝ × ℝ) :=
  curve.find? (fun p => decide (p.2 ≤ q))

-- ## Helper lemmas on sorted `XRat` lists

theorem getLastD_mem_of_ne_nil {α : Type} (l : List α) (d : α) (h : l ≠ []) :
    l.getLastD d ∈ l := by
  cases l with
  | nil => exact absurd rfl h
  | cons a t => rw [List.getLastD_cons]; exact List.getLastD_mem_cons t a

theorem headD_mem_of_ne_nil {α : Type} (l : List α) (d : α) (h : l ≠ []) :
    l.headD d ∈ l := by
  cases l with
  | nil => exact absurd rfl h
  | cons a t => simp

theorem headD_le_of_mem :
    ∀ (l : List XRat) (d : XRat), List.Chain' (· ≤ ·) l →
      ∀ x ∈ l, l.headD d ≤ x := by
  intro l
  induction l with
  | nil => intro d _ x hx; cases hx
  | cons a t ih =>
    intro d h x hx
    rcases List.mem_cons.mp hx with h2 | h2
    · subst h2; simp
    · cases t with
      | nil => cases h2
      | cons b u =>
        have hab : a ≤ b := (List.chain'_cons.mp h).1
        have hbx : (b :: u).headD d ≤ x := ih d (List.chain'_cons.mp h).2 x h2
        simp only [List.headD_cons] at hbx ⊢
        exact le_trans hab hbx

theorem le_getLastD_of_mem :
    ∀ (l : List XRat), List.Chain' (· ≤ ·) l →
      ∀ x ∈ l, ∀ d : XRat, x ≤ l.getLastD d := by
  intro l
  induction l with
  | nil => intro _ x hx; cases hx
  | cons a t ih =>
    intro h x hx d
    rw [List.getLastD_cons]
    rcases List.mem_cons.mp hx with h2 | h2
    · rw [h2]
      cases t with
      | nil => simp
      | cons b u =>
        have hab : a ≤ b := (List.chain'_cons.mp h).1
        have hb : b ≤ (b :: u).getLastD a :=
          ih (List.chain'_cons.mp h).2 b (List.mem_cons_self b u) a
        exact le_trans hab hb
    · cases t with
      | nil => cases h2
      | cons b u => exact ih (List.chain'_cons.mp h).2 x h2 a

theorem sorted_chain'_insertionSort (l : List XRat) :
    List.Chain' (· ≤ ·) (List.insertionSort (· ≤ ·) l) := by
  have h := List.sorted_insertionSort (α := XRat) (· ≤ ·) l
  exact List.chain'_iff_pairwise.mpr h

theorem mem_insertionSort_iff {l : List XRat} {x : XRat} :
    x ∈ List.insertionSort (· ≤ ·) l ↔ x ∈ l :=
  (List.perm_insertionSort (· ≤ ·) l).mem_iff

/-- On an input list of finite, non-negative values, both validation checks
of the constructor pass and the stored breakpoints are the sorted input with
the infinity sentinel appended. -/
theorem init_ok_of_fin_nonneg (input : List XRat)
    (h : ∀ x ∈ input, ∃ q : ℚ, x = (q : XRat) ∧ 0 ≤ q) :
    initBreakpoints input =
      Except.ok (List.insertionSort (· ≤ ·) input ++ [⊤]) := by
  have hmem : ∀ x ∈ List.insertionSort (· ≤ ·) input,
      ∃ q : ℚ, x = (q : XRat) ∧ 0 ≤ q := by
    intro x hx
    exact h x (mem_insertionSort_iff.mp hx)
  have hc1 : ¬ (0 < (List.insertionSort (· ≤ ·) input).length ∧
      ¬ (List.insertionSort (· ≤ ·) input).getLastD ⊤ < ⊤) := by
    rintro ⟨hlen, hlast⟩
    have hne : List.insertionSort (· ≤ ·) input ≠ [] :=
      List.length_pos.mp hlen
    obtain ⟨q, hq, _⟩ := hmem _ (getLastD_mem_of_ne_nil _ ⊤ hne)
    rw [hq] at hlast
    exact hlast (WithTop.coe_lt_top q)
  have hc2 : ¬ (0 < (List.insertionSort (· ≤ ·) input).length ∧
      (List.insertionSort (· ≤ ·) input).headD ⊤ < ((0 : ℚ) : XRat)) := by
    rintro ⟨hlen, hhead⟩
    have hne : List.insertionSort (· ≤ ·) input ≠ [] :=
      List.length_pos.mp hlen
    obtain ⟨q, hq, hq0⟩ := hmem _ (headD_mem_of_ne_nil _ ⊤ hne)
    rw [hq] at hhead
    have : q < 0 := WithTop.coe_lt_coe.mp hhead
    exact absurd this (not_lt.mpr hq0)
  simp only [initBreakpoints]
  rw [if_neg hc1, if_neg hc2]

/-- When the input contains `np.inf` or a negative value, the constructor
raises a `ValueError`. -/
theorem init_error_of_bad (input : List XRat)
    (h : ⊤ ∈ input ∨ ∃ q : ℚ, (q : XRat) ∈ input ∧ q < 0) :
    ∃ msg, initBreakpoints input = Except.error msg := by
  by_cases hc1 : 0 < (List.insertionSort (· ≤ ·) input).length ∧
      ¬ (List.insertionSort (· ≤ ·) input).getLastD ⊤ < ⊤
  · exact ⟨_, by simp only [initBreakpoints]; rw [if_pos hc1]⟩
  · have hc2 : 0 < (List.insertionSort (· ≤ ·) input).length ∧
        (List.insertionSort (· ≤ ·) input).headD ⊤ < ((0 : ℚ) : XRat) := by
      rcases h with htop | ⟨q, hq, hqneg⟩
      · exfalso
        apply hc1
        have hmem : (⊤ : XRat) ∈ List.insertionSort (· ≤ ·) input :=
          mem_insertionSort_iff.mpr htop
        constructor
        · exact List.length_pos.mpr (List.ne_nil_of_mem hmem)
        · intro hlt
          have := le_getLastD_of_mem _ (sorted_chain'_insertionSort input)
            _ hmem ⊤
          exact absurd (lt_of_le_of_lt this hlt) (lt_irrefl ⊤)
      · have hmem : ((q : XRat)) ∈ List.insertionSort (· ≤ ·) input :=
          mem_insertionSort_iff.mpr hq
        constructor
        · exact List.length_pos.mpr (List.ne_nil_of_mem hmem)
        · have hh := headD_le_of_mem _ ⊤ (sorted_chain'_insertionSort input)
            _ hmem
          exact lt_of_le_of_lt hh (WithTop.coe_lt_coe.mpr hqneg)
    exact ⟨_, by simp only [initBreakpoints]; rw [if_neg hc1, if_pos hc2]⟩

-- ## C10 and C5: constructor validation

/-- C10: the constructor sorts the supplied breakpoints before validating
them and checks only that the smallest sorted value is not negative and the
largest is finite; consequently every input of finite non-negative values —
including zeros, duplicates, or a decreasing sequence — is accepted, and
`self.breakpoints` is the sorted input with `np.inf` appended. -/
theorem C10_constructor_sorts_then_validates (input : List XRat)
    (h : ∀ x ∈ input, ∃ q : ℚ, x = (q : XRat) ∧ 0 ≤ q) :
    initBreakpoints input =
      Except.ok (List.insertionSort (· ≤ ·) input ++ [⊤]) :=
  init_ok_of_fin_nonneg input h

/-- Witness for C10 at the input `[2, 0, 2]`, which contains a zero, a
duplicate, and is not increasing; construction succeeds with the sorted
input plus the sentinel. -/
theorem C10_constructor_sorts_then_validates_witness :
    (∀ x ∈ [((2 : ℚ) : XRat), ((0 : ℚ) : XRat), ((2 : ℚ) : XRat)],
      ∃ q : ℚ, x = (q : XRat) ∧ 0 ≤ q) ∧
    initBreakpoints [((2 : ℚ) : XRat), ((0 : ℚ) : XRat), ((2 : ℚ) : XRat)] =
      Except.ok [((0 : ℚ) : XRat), ((2 : ℚ) : XRat), ((2 : ℚ) : XRat), ⊤] := by
  have hmem : ∀ x ∈ [((2 : ℚ) : XRat), ((0 : ℚ) : XRat), ((2 : ℚ) : XRat)],
      ∃ q : ℚ, x = (q : XRat) ∧ 0 ≤ q := by
    intro x hx
    fin_cases hx
    · exact ⟨2, rfl, by norm_num⟩
    · exact ⟨0, rfl, by norm_num⟩
    · exact ⟨2, rfl, by norm_num⟩
  exact ⟨hmem,
    (C10_constructor_sorts_then_validates _ hmem).trans (by rfl)⟩

/-- C5 counterexample: the non-increasing input `[2, 1]` is accepted (the
constructor sorts first), and the stored breakpoints are the sorted values
with the sentinel — not the user-supplied order with the sentinel. -/
theorem C5_counterexample :
    initBreakpoints [((2 : ℚ) : XRat), ((1 : ℚ) : XRat)] =
      Except.ok [((1 : ℚ) : XRat), ((2 : ℚ) : XRat), ⊤] ∧
    ([((1 : ℚ) : XRat), ((2 : ℚ) : XRat), ⊤] : List XRat) ≠
      [((2 : ℚ) : XRat), ((1 : ℚ) : XRat), ⊤] := by
  exact ⟨by rfl, by decide⟩

/-- C5 (amended): an input containing an infinite or a negative value is
rejected with a `ValueError` at construction time; any input of finite
non-negative values — sorted or not — is accepted, the stored breakpoints
being the SORTED input with the infinity sentinel appended, giving
`n_segments = len(input) + 1` stored boundaries. -/
theorem C5_amended_validation (input : List XRat) :
    ((⊤ ∈ input ∨ ∃ q : ℚ, (q : XRat) ∈ input ∧ q < 0) →
      ∃ msg, initBreakpoints input = Except.error msg) ∧
    ((∀ x ∈ input, ∃ q : ℚ, x = (q : XRat) ∧ 0 ≤ q) →
      initBreakpoints input =
        Except.ok (List.insertionSort (· ≤ ·) input ++ [⊤]) ∧
      n_breakpoints (List.insertionSort (· ≤ ·) input ++ [⊤]) =
        input.length + 1) := by
  refine ⟨init_error_of_bad input, fun h => ⟨init_ok_of_fin_nonneg input h, ?_⟩⟩
  simp [n_breakpoints, List.length_insertionSort]

/-- Witness for C5: a negative input is rejected; the decreasing input
`[2, 1]` is accepted and stored sorted. -/
theorem C5_amended_validation_witness :
    (∃ msg, initBreakpoints [((-1 : ℚ) : XRat)] = Except.error msg) ∧
    initBreakpoints [((2 : ℚ) : XRat), ((1 : ℚ) : XRat)] =
      Except.ok [((1 : ℚ) : XRat), ((2 : ℚ) : XRat), ⊤] := by
  constructor
  · exact (C5_amended_validation [((-1 : ℚ) : XRat)]).1
      (Or.inr ⟨-1, by simp, by norm_num⟩)
  · have hmem : ∀ x ∈ [((2 : ℚ) : XRat), ((1 : ℚ) : XRat)],
        ∃ q : ℚ, x = (q : XRat) ∧ 0 ≤ q := by
      intro x hx
      fin_cases hx
      · exact ⟨2, rfl, by norm_num⟩
      · exact ⟨1, rfl, by norm_num⟩
    exact (((C5_amended_validation _).2 hmem).1).trans (by rfl)

-- ## C3: the likelihood-ratio test

/-- C3 counterexample: for the stored breakpoints `[1, 2, ∞]` (two user
breakpoints, hence three segments) the null refit receives the original
breakpoints `[1, 2]`, not an empty set; and with 6 fitted parameters (three
segments × two covariate columns) the code uses `6 - 2 = 4` degrees of
freedom, which is neither `6 - 1` (the free-parameter difference from the
claim's empty-breakpoint intercept-only null model) nor `6 - 3` (the
difference from the null model the code actually refits, three segments with
an intercept only). -/
theorem C3_counterexample :
    nullModelBreakpointsArg [((1 : ℚ) : XRat), ((2 : ℚ) : XRat), ⊤] =
      [((1 : ℚ) : XRat), ((2 : ℚ) : XRat)] ∧
    ([((1 : ℚ) : XRat), ((2 : ℚ) : XRat)] : List XRat) ≠ [] ∧
    degreesFreedom 6 = 4 ∧ (4 : ℤ) ≠ 6 - 1 ∧ (4 : ℤ) ≠ 6 - 3 := by
  exact ⟨rfl, by decide, by decide, by decide, by decide⟩

/-- C3 (amended): the likelihood-ratio statistic is
`2·(LL_full - LL_null)`, where the null model is a refit with the SAME
breakpoint set (the stored breakpoints with the sentinel stripped, which the
constructor re-sorts and re-extends to the identical stored array) and the
intercept as only covariate; the chi-square reference uses
`(number of full-model parameters) - 2` degrees of freedom — not the
free-parameter difference between the two models in general; the null
log-likelihood is computed on first access and cached thereafter. -/
theorem C3_amended_lrt :
    (∀ (input stored : List XRat),
      (∀ x ∈ input, ∃ q : ℚ, x = (q : XRat) ∧ 0 ≤ q) →
      initBreakpoints input = Except.ok stored →
      initBreakpoints (nullModelBreakpointsArg stored) = Except.ok stored) ∧
    (∀ llAlt llNull : ℝ, computeLRTstat llAlt llNull = 2 * (llAlt - llNull)) ∧
    (∀ p : ℕ, degreesFreedom p = (p : ℤ) - 2) ∧
    (∀ v c : ℝ, llNullAccess (some v) c = (v, some v)) ∧
    (∀ c : ℝ, llNullAccess none c = (c, some c)) := by
  refine ⟨?_, fun a b => by simp [computeLRTstat]; ring, fun p => rfl,
    fun v c => rfl, fun c => rfl⟩
  intro input stored h hok
  rw [init_ok_of_fin_nonneg input h] at hok
  obtain rfl : List.insertionSort (· ≤ ·) input ++ [⊤] = stored :=
    Except.ok.inj hok
  have hdrop : nullModelBreakpointsArg
      (List.insertionSort (· ≤ ·) input ++ [⊤]) =
      List.insertionSort (· ≤ ·) input := by
    simp [nullModelBreakpointsArg]
  rw [hdrop]
  have hmem : ∀ x ∈ List.insertionSort (· ≤ ·) input,
      ∃ q : ℚ, x = (q : XRat) ∧ 0 ≤ q := fun x hx =>
    h x (mem_insertionSort_iff.mp hx)
  rw [init_ok_of_fin_nonneg _ hmem,
    (List.sorted_insertionSort (· ≤ ·) input).insertionSort_eq]

/-- Witness for C3: the stored breakpoints `[1, 2, ∞]` refit to themselves;
`2·5 - 2·3 = 2·(5 - 3)`; six parameters give 4 degrees of freedom; a cached
null log-likelihood is served from the cache. -/
theorem C3_amended_lrt_witness :
    initBreakpoints (nullModelBreakpointsArg
      [((1 : ℚ) : XRat), ((2 : ℚ) : XRat), ⊤]) =
      Except.ok [((1 : ℚ) : XRat), ((2 : ℚ) : XRat), ⊤] ∧
    computeLRTstat 5 3 = 2 * (5 - 3) ∧
    degreesFreedom 6 = (6 : ℤ) - 2 ∧
    llNullAccess (some 7) 9 = (7, some 7) := by
  refine ⟨?_, C3_amended_lrt.2.1 5 3, C3_amended_lrt.2.2.1 6,
    C3_amended_lrt.2.2.2.1 7 9⟩
  refine C3_amended_lrt.1 [((1 : ℚ) : XRat), ((2 : ℚ) : XRat)] _ ?_ (by rfl)
  intro x hx
  fin_cases hx
  · exact ⟨1, rfl, by norm_num⟩
  · exact ⟨2, rfl, by norm_num⟩

-- ## C2: the exposures

theorem getD_map_of_lt {α β : Type} (f : α → β) (l : List α) (i : ℕ)
    (hi : i < l.length) (d : α) (dB : β) : (l.map f).getD i dB = f (l.getD i d) := by
  rw [List.getD_eq_getElem _ dB (by simpa using hi), List.getD_eq_getElem _ d hi,
    List.getElem_map]

theorem head_cons_diffs_sum :
    ∀ (rest : List ℝ) (m : ℝ),
      (m :: List.zipWith (fun a b => b - a) (m :: rest) rest).sum =
        (m :: rest).getLastD 0 := by
  intro rest
  induction rest with
  | nil => intro m; simp
  | cons r rs ih =>
    intro m
    have h := ih r
    simp only [List.zipWith_cons_cons, List.sum_cons] at h ⊢
    rw [List.getLastD_cons] at h ⊢
    rw [List.getLastD_cons]
    linarith

theorem getLastD_append_singleton {α : Type} (l : List α) (a d : α) :
    (l ++ [a]).getLastD d = a := by
  induction l generalizing d with
  | nil => rfl
  | cons b bs ih => rw [List.cons_append, List.getLastD_cons]; exact ih b

theorem exposures_sum (bp : List ℝ) (t : ℝ) : (exposures bp t).sum = t := by
  unfold exposures
  cases bp with
  | nil => simp
  | cons b bs =>
    simp only [List.map_cons, List.cons_append, List.headD_cons, List.tail_cons]
    rw [head_cons_diffs_sum, List.getLastD_cons]
    exact getLastD_append_singleton _ t _

theorem diffs_nonneg :
    ∀ M : List ℝ, List.Chain' (· ≤ ·) M →
      ∀ e ∈ List.zipWith (fun a b => b - a) M M.tail, 0 ≤ e := by
  intro M
  induction M with
  | nil => intro _ e he; simp at he
  | cons m rest ih =>
    intro h e he
    cases rest with
    | nil => simp at he
    | cons r rs =>
      simp only [List.tail_cons, List.zipWith_cons_cons, List.mem_cons] at he
      rcases he with rfl | he
      · have : m ≤ r := (List.chain'_cons.mp h).1
        linarith
      · exact ih (List.chain'_cons.mp h).2 e (by simpa using he)

theorem chain'_min_map (bp : List ℝ) (t : ℝ) (h : List.Chain' (· ≤ ·) bp) :
    List.Chain' (· ≤ ·) (bp.map (fun b => min b t)) := by
  induction bp with
  | nil => simp
  | cons b bs ih =>
    cases bs with
    | nil => simp
    | cons b2 bs2 =>
      simp only [List.map_cons]
      rw [List.chain'_cons]
      refine ⟨min_le_min (List.chain'_cons.mp h).1 le_rfl, ?_⟩
      have := ih (List.chain'_cons.mp h).2
      simpa using this

theorem chain'_exposure_boundaries (bp : List ℝ) (t : ℝ)
    (h : List.Chain' (· ≤ ·) bp) :
    List.Chain' (· ≤ ·) (bp.map (fun b => min b t) ++ [t]) := by
  apply List.Chain'.append (chain'_min_map bp t h) (List.chain'_singleton t)
  intro x hx y hy
  simp only [List.head?_cons, Option.mem_def, Option.some.injEq] at hy
  subst hy
  have hxm : x ∈ bp.map (fun b => min b t) := by
    obtain ⟨hne, hxeq⟩ := List.mem_getLast?_eq_getLast hx
    rw [hxeq]
    exact List.getLast_mem hne
  obtain ⟨b, _, rfl⟩ := List.mem_map.mp hxm
  exact min_le_right b t

theorem exposures_nonneg (bp : List ℝ) (t : ℝ)
    (hchain : List.Chain' (· ≤ ·) bp) (hnn : ∀ b ∈ bp, 0 ≤ b) (ht : 0 ≤ t) :
    ∀ e ∈ exposures bp t, 0 ≤ e := by
  intro e he
  unfold exposures at he
  simp only [List.mem_cons] at he
  rcases he with rfl | he
  · cases bp with
    | nil => simpa using ht
    | cons b bs =>
      simp only [List.map_cons, List.cons_append, List.headD_cons]
      exact le_min (hnn b (List.mem_cons_self b bs)) ht
  · exact diffs_nonneg _ (chain'_exposure_boundaries bp t hchain) e he

/-- C2: for strictly increasing non-negative breakpoints (with the infinity
sentinel) and any duration `t > 0`, every per-segment exposure
`e_i = min(b_i, t) - min(b_(i-1), t)` is non-negative and the exposures sum
to `t`; the vectorized exposure matrices built at fit time
(`_cumulative_hazard`) and at prediction time (`predict_cumulative_hazard`)
are identical and have exactly these rows. -/
theorem C2_exposure_partition (bp : List ℝ) (t : ℝ)
    (hchain : List.Chain' (· < ·) bp) (hnn : ∀ b ∈ bp, 0 ≤ b) (ht : 0 < t) :
    (∀ e ∈ exposures bp t, 0 ≤ e) ∧ (exposures bp t).sum = t ∧
    (∀ T : List ℝ, fit_exposure_rows bp T = predict_exposure_rows bp T) ∧
    (∀ (T : List ℝ) (i : ℕ), i < T.length →
      (fit_exposure_rows bp T).getD i [] = exposures bp (T.getD i 0) ∧
      (predict_exposure_rows bp T).getD i [] = exposures bp (T.getD i 0)) := by
  refine ⟨exposures_nonneg bp t (hchain.imp fun _ _ hab => le_of_lt hab) hnn ht.le,
    exposures_sum bp t, fun T => rfl, fun T i hi => ?_⟩
  constructor
  · exact getD_map_of_lt (exposures bp) T i hi 0 []
  · exact getD_map_of_lt (exposures bp) T i hi 0 []

/-- Witness for C2 at breakpoints `[1, 3]` and `t = 2`: the exposures are
`[1, 1, 0]`, non-negative and summing to `2`. -/
theorem C2_exposure_partition_witness :
    List.Chain' (· < ·) [(1 : ℝ), 3] ∧ (0 : ℝ) < 2 ∧
    (exposures [(1 : ℝ), 3] 2).sum = 2 ∧
    fit_exposure_rows [(1 : ℝ), 3] [2] = predict_exposure_rows [(1 : ℝ), 3] [2] := by
  have hchain : List.Chain' (· < ·) [(1 : ℝ), 3] := by
    norm_num [List.chain'_cons]
  have hnn : ∀ b ∈ [(1 : ℝ), 3], 0 ≤ b := by
    intro b hb; fin_cases hb <;> norm_num
  have h2 : (0 : ℝ) < 2 := by norm_num
  exact ⟨hchain, h2,
    (C2_exposure_partition [(1 : ℝ), 3] 2 hchain hnn h2).2.1,
    (C2_exposure_partition [(1 : ℝ), 3] 2 hchain hnn h2).2.2.1 [2]⟩

-- ## C8: survival = exp(-cumulative hazard)

/-- C8: entrywise, for every requested time index `i` and subject index `j`,
the predicted survival table is the elementwise exponential of the negated
predicted cumulative-hazard table. -/
theorem C8_survival_is_exp_neg_cumhaz (bp params : List ℝ) (d : ℕ)
    (X : List (List ℝ)) (times : List ℝ) (i j : ℕ)
    (hi : i < times.length) (hj : j < X.length) :
    ((predict_survival_function bp params d X times).getD i []).getD j 0 =
      Real.exp
        (-(((predict_cumulative_hazard bp params d X times).getD i []).getD j 0)) := by
  have hlen : i < (predict_cumulative_hazard bp params d X times).length := by
    simpa [predict_cumulative_hazard] using hi
  have hrow : (predict_cumulative_hazard bp params d X times).getD i [] =
      X.map (fun x =>
        (List.zipWith (fun m lam => m * (1 / lam)) (exposures bp (times.getD i 0))
          (prep_lambdas params d (bp.length + 1) x)).sum) := by
    unfold predict_cumulative_hazard
    exact getD_map_of_lt _ times i hi 0 []
  unfold predict_survival_function
  rw [getD_map_of_lt (fun row => row.map (fun v => Real.exp (-v))) _ i hlen [] [],
    hrow, List.map_map, getD_map_of_lt _ X j hj [] 0, getD_map_of_lt _ X j hj [] 0]
  rfl

/-- Witness for C8 on a one-subject, one-time table. -/
theorem C8_survival_is_exp_neg_cumhaz_witness :
    ((predict_survival_function [] [0] 1 [[1]] [1]).getD 0 []).getD 0 0 =
      Real.exp
        (-(((predict_cumulative_hazard [] [0] 1 [[1]] [1]).getD 0 []).getD 0 0)) :=
  C8_survival_is_exp_neg_cumhaz [] [0] 1 [[1]] [1] 0 0 (by decide) (by decide)

-- ## C6: the convergence error

/-- C6: after the single optimizer invocation of `_fit_model`, a failed
result raises `ConvergenceError` with the diagnostic message (which suggests
standardizing, handling outliers, and adding or changing the penalizer),
aborting the fit; a successful result returns the minimizer, the
log-likelihood `-Σw · fun`, and the `Σw`-scaled Hessian, with no such
error. -/
theorem C6_convergence_error (sumWeights : ℝ)
    (hessianAtMin : List ℝ → List (List ℝ)) (results : OptimizerResult) :
    (results.success = true →
      fit_model sumWeights "PiecewiseExponentialRegressionFitter" hessianAtMin
          results =
        Except.ok (results.x, -sumWeights * results.objective,
          (hessianAtMin results.x).map
            (fun row => row.map (fun v => sumWeights * v)))) ∧
    (results.success = false →
      fit_model sumWeights "PiecewiseExponentialRegressionFitter" hessianAtMin
          results =
        Except.error
          (convergence_error_message "PiecewiseExponentialRegressionFitter")) ∧
    "standardizing".data <:+:
      (convergence_error_message "PiecewiseExponentialRegressionFitter").data ∧
    "outliers".data <:+:
      (convergence_error_message "PiecewiseExponentialRegressionFitter").data ∧
    "penalizer".data <:+:
      (convergence_error_message "PiecewiseExponentialRegressionFitter").data := by
  refine ⟨fun hs => by simp [fit_model, hs], fun hs => by simp [fit_model, hs],
    ?_, ?_, ?_⟩
  · set_option maxRecDepth 100000 in decide
  · set_option maxRecDepth 100000 in decide
  · set_option maxRecDepth 100000 in decide

/-- Witness for C6: a failing optimizer result raises the error, a
succeeding one returns the fitted triple. -/
theorem C6_convergence_error_witness :
    fit_model 3 "PiecewiseExponentialRegressionFitter" (fun _ => [[1]])
        ⟨false, [], 0⟩ =
      Except.error
        (convergence_error_message "PiecewiseExponentialRegressionFitter") ∧
    fit_model 3 "PiecewiseExponentialRegressionFitter" (fun _ => [[1]])
        ⟨true, [2], 5⟩ =
      Except.ok ([(2 : ℝ)], -(3 : ℝ) * 5,
        ([[(1 : ℝ)]]).map (fun row => row.map (fun v => (3 : ℝ) * v))) :=
  ⟨(C6_convergence_error 3 (fun _ => [[1]]) ⟨false, [], 0⟩).2.1 rfl,
    (C6_convergence_error 3 (fun _ => [[1]]) ⟨true, [2], 5⟩).1 rfl⟩

-- ## C7: the variance matrix

theorem norm_std_repeated_getD (sigma : List ℝ) (d : ℕ) (hσ : sigma.length = d) :
    ∀ (k i : ℕ), i < k * d →
      (norm_std_repeated sigma k).getD i 0 = sigma.getD (i % d) 0 := by
  intro k
  induction k with
  | zero => intro i hi; simp at hi
  | succ k ih =>
    intro i hi
    have hflat : norm_std_repeated sigma (k + 1) =
        sigma ++ norm_std_repeated sigma k := by
      simp [norm_std_repeated, List.replicate_succ]
    rw [hflat]
    by_cases hlt : i < d
    · have h1 : i < sigma.length := by rw [hσ]; exact hlt
      rw [List.getD_append _ _ _ _ h1, Nat.mod_eq_of_lt hlt]
    · have h2 : sigma.length ≤ i := by rw [hσ]; omega
      have h3 : i - sigma.length = i - d := by rw [hσ]
      have h4 : i - d < k * d := by
        rw [Nat.succ_mul] at hi
        omega
      rw [List.getD_append_right _ _ _ _ h2, h3, ih (i - d) h4,
        show i % d = (i - d) % d from Nat.mod_eq_sub_mod (le_of_not_lt hlt)]

/-- C7: the naive variance matrix is the inverse of the stored Hessian with
entry `(i, j)` divided by the product of the `i`-th and `j`-th entries of the
normalization-scale vector (the per-covariate scale repeated per segment, so
entry `i` is the scale of covariate `i % d`); when the Hessian is singular
the pseudo-inverse is used instead, the non-fatal warning fires, and a
matrix is still produced. -/
theorem C7_variance_matrix {m : ℕ}
    (hessian pinvHessian : Matrix (Fin m) (Fin m) ℝ)
    (sigma : List ℝ) (d k : ℕ) (hσ : sigma.length = d) :
    (IsUnit hessian.det →
      compute_variance_matrix hessian pinvHessian
          (fun i => (norm_std_repeated sigma k).getD i 0) =
        Matrix.of (fun i j => hessian⁻¹ i j /
          ((norm_std_repeated sigma k).getD i 0 *
            (norm_std_repeated sigma k).getD j 0)) ∧
      ¬ hessian_singular_warning hessian) ∧
    (¬ IsUnit hessian.det →
      compute_variance_matrix hessian pinvHessian
          (fun i => (norm_std_repeated sigma k).getD i 0) =
        Matrix.of (fun i j => pinvHessian i j /
          ((norm_std_repeated sigma k).getD i 0 *
            (norm_std_repeated sigma k).getD j 0)) ∧
      hessian_singular_warning hessian) ∧
    (∀ i : ℕ, i < k * d →
      (norm_std_repeated sigma k).getD i 0 = sigma.getD (i % d) 0) := by
  refine ⟨fun hu => ⟨?_, fun hw => hw hu⟩, fun hu => ⟨?_, hu⟩,
    norm_std_repeated_getD sigma d hσ k⟩
  · unfold compute_variance_matrix
    rw [if_pos hu]
  · unfold compute_variance_matrix
    rw [if_neg hu]

/-- Witness for C7 with the invertible 1×1 identity Hessian and scale
vector `[2]`. -/
theorem C7_variance_matrix_witness :
    IsUnit (1 : Matrix (Fin 1) (Fin 1) ℝ).det ∧
    compute_variance_matrix (1 : Matrix (Fin 1) (Fin 1) ℝ) 0
        (fun i => (norm_std_repeated [2] 1).getD i 0) =
      Matrix.of (fun i j => (1 : Matrix (Fin 1) (Fin 1) ℝ)⁻¹ i j /
        ((norm_std_repeated [2] 1).getD i 0 *
          (norm_std_repeated [2] 1).getD j 0)) ∧
    (norm_std_repeated [2] 1).getD 0 0 = [(2 : ℝ)].getD (0 % 1) 0 := by
  have hu : IsUnit (1 : Matrix (Fin 1) (Fin 1) ℝ).det := by
    rw [Matrix.det_one]; exact isUnit_one
  exact ⟨hu, ((C7_variance_matrix 1 0 [2] 1 1 rfl).1 hu).1,
    (C7_variance_matrix (m := 1) 1 0 [2] 1 1 rfl).2.2 0 (by norm_num)⟩

-- ## C9: percentile lookup

theorem qth_survival_time_eq_none_iff (q : ℝ) :
    ∀ curve : List (ℝ × ℝ),
      qth_survival_time q curve = none ↔ ∀ pr ∈ curve, q < pr.2 := by
  intro curve
  induction curve with
  | nil => simp [qth_survival_time]
  | cons a rest ih =>
    obtain ⟨t0, s0⟩ := a
    cases rest with
    | nil =>
      by_cases h : s0 ≤ q
      · simp only [qth_survival_time, if_pos h]
        constructor
        · intro hc; cases hc
        · intro hall
          exact absurd (hall (t0, s0) (List.mem_singleton.mpr rfl)) (not_lt.mpr h)
      · simp only [qth_survival_time, if_neg h]
        constructor
        · intro _ pr hpr
          rw [List.mem_singleton.mp hpr]
          exact lt_of_not_le h
        · intro _; trivial
    | cons b rest2 =>
      obtain ⟨t1, s1⟩ := b
      by_cases h0 : s0 ≤ q
      · simp only [qth_survival_time, if_pos h0]
        constructor
        · intro hc; cases hc
        · intro hall
          exact absurd (hall (t0, s0) (List.mem_cons_self _ _)) (not_lt.mpr h0)
      · by_cases h1 : s1 ≤ q
        · simp only [qth_survival_time, if_neg h0, if_pos h1]
          constructor
          · intro hc; cases hc
          · intro hall
            exact absurd (hall (t1, s1)
              (List.mem_cons_of_mem _ (List.mem_cons_self _ _))) (not_lt.mpr h1)
        · have hstep : qth_survival_time q ((t0, s0) :: (t1, s1) :: rest2) =
              qth_survival_time q ((t1, s1) :: rest2) := by
            simp only [qth_survival_time, if_neg h0, if_neg h1]
          rw [hstep, ih]
          constructor
          · intro hall pr hpr
            rcases List.mem_cons.mp hpr with rfl | hpr2
            · exact lt_of_not_le h0
            · exact hall pr hpr2
          · intro hall pr hpr
            exact hall pr (List.mem_cons_of_mem _ hpr)

theorem qth_survival_time_crossing_bounds (q : ℝ) :
    ∀ curve : List (ℝ × ℝ),
      List.Chain' (· ≤ ·) (curve.map Prod.fst) →
      ∀ tc sc, firstCrossing q curve = some (tc, sc) →
        ∃ r, qth_survival_time q curve = some r ∧ r ≤ tc ∧
          (∀ t0 s0 tail, curve = (t0, s0) :: tail → t0 ≤ r) := by
  intro curve
  induction curve with
  | nil => intro _ tc sc hfc; simp [firstCrossing] at hfc
  | cons a rest ih =>
    obtain ⟨t0, s0⟩ := a
    intro hchain tc sc hfc
    by_cases h0 : s0 ≤ q
    · have ht : tc = t0 := by
        unfold firstCrossing at hfc
        rw [List.find?_cons_of_pos _ (by simpa using h0)] at hfc
        exact (congrArg Prod.fst (Option.some.inj hfc)).symm
      have hq : qth_survival_time q ((t0, s0) :: rest) = some t0 := by
        cases rest with
        | nil => simp [qth_survival_time, h0]
        | cons b rest2 =>
          obtain ⟨t1, s1⟩ := b
          simp [qth_survival_time, h0]
      refine ⟨t0, hq, by rw [ht], ?_⟩
      intro ta sa tail he
      have hta : t0 = ta := by
        injection he with he1 _
        injection he1 with he1a _
      rw [← hta]
    · have hfcrest : firstCrossing q rest = some (tc, sc) := by
        unfold firstCrossing at hfc ⊢
        rwa [List.find?_cons_of_neg _ (by simpa using h0)] at hfc
      cases rest with
      | nil => simp [firstCrossing] at hfcrest
      | cons b rest2 =>
        obtain ⟨t1, s1⟩ := b
        have hmap : ((t0, s0) :: (t1, s1) :: rest2).map Prod.fst =
            t0 :: t1 :: rest2.map Prod.fst := rfl
        have h01 : t0 ≤ t1 := by
          rw [hmap] at hchain
          exact (List.chain'_cons.mp hchain).1
        have hchain1 : List.Chain' (· ≤ ·) (((t1, s1) :: rest2).map Prod.fst) := by
          rw [hmap] at hchain
          exact (List.chain'_cons.mp hchain).2
        by_cases h1 : s1 ≤ q
        · have ht : tc = t1 := by
            unfold firstCrossing at hfcrest
            rw [List.find?_cons_of_pos _ (by simpa using h1)] at hfcrest
            exact (congrArg Prod.fst (Option.some.inj hfcrest)).symm
          have hq0 : q < s0 := lt_of_not_le h0
          have hden : 0 < s0 - s1 := by linarith
          refine ⟨t0 + (t1 - t0) * (s0 - q) / (s0 - s1),
            by simp [qth_survival_time, h0, h1], ?_, ?_⟩
          · rw [ht]
            have hfrac : (s0 - q) / (s0 - s1) ≤ 1 := by
              rw [div_le_one hden]; linarith
            have h10 : 0 ≤ t1 - t0 := by linarith
            have hb : (t1 - t0) * ((s0 - q) / (s0 - s1)) ≤ (t1 - t0) * 1 :=
              mul_le_mul_of_nonneg_left hfrac h10
            rw [mul_div_assoc]
            linarith
          · intro ta sa tail he
            have hta : t0 = ta := by
              injection he with he1 _
              injection he1 with he1a _
            rw [← hta]
            have hfrac0 : 0 ≤ (s0 - q) / (s0 - s1) :=
              div_nonneg (by linarith) hden.le
            have h10 : 0 ≤ t1 - t0 := by linarith
            have hb : 0 ≤ (t1 - t0) * ((s0 - q) / (s0 - s1)) :=
              mul_nonneg h10 hfrac0
            rw [mul_div_assoc]
            linarith
        · obtain ⟨r, hr1, hr2, hr3⟩ := ih hchain1 tc sc hfcrest
          refine ⟨r, ?_, hr2, ?_⟩
          · rw [show qth_survival_time q ((t0, s0) :: (t1, s1) :: rest2) =
                qth_survival_time q ((t1, s1) :: rest2) from by
              simp only [qth_survival_time, if_neg h0, if_neg h1]]
            exact hr1
          · intro ta sa tail he
            have hta : t0 = ta := by
              injection he with he1 _
              injection he1 with he1a _
            rw [← hta]
            exact le_trans h01 (hr3 t1 s1 rest2 rfl)

/-- C9 (spec-modelled, `qth_survival_times` is outside `src/`): for a
subject's tabulated survival curve with increasing times,
`predict_percentile(X, p)` yields `+infinity` (modelled `none`) exactly when
the predicted survival never falls to or below `1 - p` within the available
timeline; and when some tabulated point does fall to or below `1 - p`, the
result is a finite time no later than the smallest such tabulated time and
no earlier than the first grid time (the interpolated value between the two
flanking grid points). -/
theorem C9_predict_percentile (p : ℝ) (curve : List (ℝ × ℝ))
    (hchain : List.Chain' (· ≤ ·) (curve.map Prod.fst)) :
    (predict_percentile_subject p curve = none ↔
      ∀ pr ∈ curve, 1 - p < pr.2) ∧
    (∀ tc sc, firstCrossing (1 - p) curve = some (tc, sc) →
      ∃ r, predict_percentile_subject p curve = some r ∧ r ≤ tc ∧
        (∀ t0 s0 tail, curve = (t0, s0) :: tail → t0 ≤ r)) :=
  ⟨qth_survival_time_eq_none_iff (1 - p) curve,
    qth_survival_time_crossing_bounds (1 - p) curve hchain⟩

/-- Witness for C9: a curve that stays above `1 - p` yields infinity; a
curve crossing `0.5` between the grid times `1` and `2` yields a finite
percentile at most `2`. -/
theorem C9_predict_percentile_witness :
    predict_percentile_subject 0.5 [((1 : ℝ), (0.9 : ℝ))] = none ∧
    (∃ r, predict_percentile_subject 0.5
        [((1 : ℝ), (0.9 : ℝ)), ((2 : ℝ), (0.4 : ℝ))] = some r ∧ r ≤ 2) := by
  constructor
  · refine (C9_predict_percentile 0.5 [((1 : ℝ), (0.9 : ℝ))] (by simp)).1.mpr ?_
    intro pr hpr
    rw [List.mem_singleton.mp hpr]
    norm_num
  · have hchain : List.Chain' (· ≤ ·)
        ([((1 : ℝ), (0.9 : ℝ)), ((2 : ℝ), (0.4 : ℝ))].map Prod.fst) := by
      norm_num [List.chain'_cons]
    have hfc : firstCrossing ((1 : ℝ) - 0.5)
        [((1 : ℝ), (0.9 : ℝ)), ((2 : ℝ), (0.4 : ℝ))] = some (2, 0.4) := by
      unfold firstCrossing
      rw [List.find?_cons_of_neg _ (by norm_num),
        List.find?_cons_of_pos _ (by norm_num)]
    obtain ⟨r, hr1, hr2, _⟩ :=
      (C9_predict_percentile 0.5 _ hchain).2 2 0.4 hfc
    exact ⟨r, hr1, hr2⟩

-- ## C1: list infrastructure for the likelihood refinement

theorem maskFilter_zip {α β : Type} :
    ∀ (E : List Bool) (A : List α) (B : List β),
      A.length = E.length → B.length = E.length →
      (maskFilter A E).zip (maskFilter B E) = maskFilter (A.zip B) E := by
  intro E
  induction E with
  | nil =>
    intro A B hA hB
    rw [List.length_eq_zero.mp hA, List.length_eq_zero.mp hB]
    rfl
  | cons e E ih =>
    intro A B hA hB
    cases A with
    | nil => simp at hA
    | cons a A' =>
      cases B with
      | nil => simp at hB
      | cons b B' =>
        have hA' : A'.length = E.length := by simpa using hA
        have hB' : B'.length = E.length := by simpa using hB
        cases e with
        | false => simpa [maskFilter] using ih A' B' hA' hB'
        | true => simpa [maskFilter] using ih A' B' hA' hB'

theorem sum_zipWith_maskFilter {α β : Type} (f : α → β → ℝ) :
    ∀ (E : List Bool) (A : List α) (B : List β),
      A.length = E.length → B.length = E.length →
      (List.zipWith f (maskFilter A E) (maskFilter B E)).sum =
        ((E.zip (A.zip B)).map
          (fun w => if w.1 then f w.2.1 w.2.2 else 0)).sum := by
  intro E
  induction E with
  | nil =>
    intro A B hA hB
    rw [List.length_eq_zero.mp hA, List.length_eq_zero.mp hB]
    rfl
  | cons e E ih =>
    intro A B hA hB
    cases A with
    | nil => simp at hA
    | cons a A' =>
      cases B with
      | nil => simp at hB
      | cons b B' =>
        have hA' : A'.length = E.length := by simpa using hA
        have hB' : B'.length = E.length := by simpa using hB
        cases e with
        | false => simpa [maskFilter] using ih A' B' hA' hB'
        | true => simpa [maskFilter] using ih A' B' hA' hB'

theorem sum_range_getD_eq (F : Bool → ℝ → ℝ → List ℝ → ℝ) :
    ∀ (E : List Bool) (W T : List ℝ) (X : List (List ℝ)),
      W.length = E.length → T.length = E.length → X.length = E.length →
      ((List.range E.length).map (fun i =>
        F (E.getD i false) (W.getD i 0) (T.getD i 0) (X.getD i []))).sum =
      ((E.zip (W.zip (T.zip X))).map
        (fun w => F w.1 w.2.1 w.2.2.1 w.2.2.2)).sum := by
  intro E
  induction E with
  | nil => intro W T X _ _ _; simp
  | cons e E ih =>
    intro W T X hW hT hX
    cases W with
    | nil => simp at hW
    | cons w W' =>
      cases T with
      | nil => simp at hT
      | cons t T' =>
        cases X with
        | nil => simp at hX
        | cons x X' =>
          have hW' : W'.length = E.length := by simpa using hW
          have hT' : T'.length = E.length := by simpa using hT
          have hX' : X'.length = E.length := by simpa using hX
          rw [List.length_cons, List.range_succ_eq_map]
          simp only [List.map_cons, List.map_map, List.sum_cons,
            List.getD_cons_zero, List.zip_cons_cons]
          have hmap : List.map
              ((fun i => F ((e :: E).getD i false) ((w :: W').getD i 0)
                ((t :: T').getD i 0) ((x :: X').getD i [])) ∘ Nat.succ)
              (List.range E.length) =
              List.map (fun i => F (E.getD i false) (W'.getD i 0)
                (T'.getD i 0) (X'.getD i [])) (List.range E.length) := by
            apply List.map_congr_left
            intro i _
            simp [List.getD_cons_succ]
          rw [hmap, ih W' T' X' hW' hT' hX']

theorem sum_map_zip_snd {α : Type} :
    ∀ (E : List Bool) (L : List α) (G : α → ℝ), E.length = L.length →
      ((E.zip L).map (fun w => G w.2)).sum = (L.map G).sum := by
  intro E
  induction E with
  | nil =>
    intro L G hL
    rw [(List.length_eq_zero).mp hL.symm]
    rfl
  | cons e E ih =>
    intro L G hL
    cases L with
    | nil => simp at hL
    | cons a L' =>
      have hL' : E.length = L'.length := by simpa using hL
      simpa using ih L' G hL'

theorem zipWith_eq_map_zip {α β γ : Type} (f : α → β → γ) :
    ∀ (A : List α) (B : List β),
      List.zipWith f A B = (A.zip B).map (fun p => f p.1 p.2) := by
  intro A
  induction A with
  | nil => intro B; cases B <;> rfl
  | cons a A' ih =>
    intro B
    cases B with
    | nil => rfl
    | cons b B' => simpa using ih B'

theorem getD_drop_add {α : Type} (l : List α) (n m : ℕ) (d : α) :
    (l.drop n).getD m d = l.getD (n + m) d := by
  simp [List.getD_eq_getElem?_getD, List.getElem?_drop]

theorem everyNth_eq_paramColumn :
    ∀ (k : ℕ) (params : List ℝ) (i d : ℕ), 0 < d → i < d →
      params.length = k * d →
      everyNth d (params.drop i) =
        (List.range k).map (fun j => params.getD (j * d + i) 0) := by
  intro k
  induction k with
  | zero =>
    intro params i d _ _ hlen
    have hnil : params = [] := List.eq_nil_of_length_eq_zero (by simpa using hlen)
    subst hnil
    simp [everyNth]
  | succ k ih =>
    intro params i d hd hi hlen
    have hiL : i < params.length := by
      rw [hlen, Nat.succ_mul]
      have : i < d := hi
      omega
    have hdropcons : params.drop i = params.getD i 0 :: params.drop (i + 1) := by
      rw [List.getD_eq_getElem _ _ hiL]
      exact List.drop_eq_getElem_cons hiL
    rw [hdropcons]
    simp only [everyNth]
    rw [List.drop_drop]
    have hidx : i + 1 + (d - 1) = i + d := by omega
    rw [hidx]
    have hdropd : params.drop (i + d) = (params.drop d).drop i := by
      rw [List.drop_drop]
      congr 1
      omega
    rw [hdropd]
    have hlen' : (params.drop d).length = k * d := by
      rw [List.length_drop, hlen, Nat.succ_mul]
      omega
    rw [ih (params.drop d) i d hd hi hlen']
    rw [List.range_succ_eq_map]
    simp only [List.map_cons, List.map_map]
    congr 1
    · simp
    · apply List.map_congr_left
      intro j _
      simp only [Function.comp]
      rw [getD_drop_add]
      congr 1
      rw [Nat.succ_eq_add_one]
      ring

theorem sum_map_mul_const (c : ℝ) :
    ∀ l : List ℝ, (l.map (fun v => c * v)).sum = c * l.sum := by
  intro l
  induction l with
  | nil => simp
  | cons a l ih => simp [ih, mul_add]

/-- C1 (amended): the value of `_negative_log_likelihood` equals
`-[ Σ_{i: event_i} w_i·log h_clip(T_i, X_i) - Σ_i w_i·H(T_i, X_i) ] / Σ w_i
+ penalizer · (Σ over covariate columns of the variance of that column's
per-segment coefficients)`, where `h_clip` is the hazard clipped below at
`1e-20`: the penalty is the SUM of per-column variances, not their mean. -/
theorem C1_nll_refines_amended_spec (bp : List ℝ) (penalizer : ℝ) (d : ℕ)
    (params T : List ℝ) (E : List Bool) (W : List ℝ) (X : List (List ℝ))
    (hE : E.length = T.length) (hW : W.length = T.length)
    (hX : X.length = T.length)
    (hp : params.length = (bp.length + 1) * d) (hd : 0 < d)
    (hpen : 0 ≤ penalizer) :
    negative_log_likelihood bp penalizer d params T E W X =
      NLL_spec_amended bp penalizer d params T E W X := by
  have hWE : W.length = E.length := hW.trans hE.symm
  have hTE : T.length = E.length := hE.symm
  have hXE : X.length = E.length := hX.trans hE.symm
  have hTXE : (T.zip X).length = E.length := by
    simp only [List.length_zip, hX]
    rw [min_self]
    exact hE.symm
  have hWTXE : E.length = (W.zip (T.zip X)).length := by
    simp only [List.length_zip, hX, hW]
    rw [min_self, min_self]
    exact hE
  have hev : (List.zipWith (fun w p => w * log_hazard bp params d p.1 p.2)
      (maskFilter W E) ((maskFilter T E).zip (maskFilter X E))).sum =
      ((E.zip (W.zip (T.zip X))).map (fun w => if w.1 then
        w.2.1 * Real.log (max (hazard bp params d w.2.2.1 w.2.2.2) 1e-20)
      else 0)).sum := by
    rw [maskFilter_zip E T X hTE hXE,
      sum_zipWith_maskFilter (fun w p => w * log_hazard bp params d p.1 p.2)
        E W (T.zip X) hWE hTXE]
    simp only [log_hazard]
  have hcum : (List.zipWith (fun w row => (row.map (fun v => w * v)).sum)
      W (cumulative_hazard bp params d T X)).sum =
      ((E.zip (W.zip (T.zip X))).map (fun w =>
        w.2.1 * cumulative_hazard_at bp params d w.2.2.1 w.2.2.2)).sum := by
    rw [sum_map_zip_snd E (W.zip (T.zip X))
      (fun p => p.1 * cumulative_hazard_at bp params d p.2.1 p.2.2) hWTXE]
    unfold cumulative_hazard
    rw [List.zipWith_map_right, zipWith_eq_map_zip]
    refine congrArg List.sum (List.map_congr_left ?_)
    intro p _
    unfold cumulative_hazard_at
    exact sum_map_mul_const p.1 _
  simp only [negative_log_likelihood, NLL_spec_amended]
  rw [hev, hcum, ← hE,
    sum_range_getD_eq (fun e w t x =>
      if e then w * Real.log (max (hazard bp params d t x) 1e-20) else 0)
      E W T X hWE hTE hXE,
    sum_range_getD_eq (fun _ w t x => w * cumulative_hazard_at bp params d t x)
      E W T X hWE hTE hXE]
  by_cases hpen0 : 0 < penalizer
  · rw [if_pos hpen0]
    have hps : coefPenalty params d =
        sum_segment_variance params d (bp.length + 1) := by
      unfold coefPenalty sum_segment_variance paramColumn
      refine congrArg List.sum (List.map_congr_left ?_)
      intro i hi
      rw [everyNth_eq_paramColumn (bp.length + 1) params i d hd
        (List.mem_range.mp hi) hp]
    rw [hps]
  · have hpz : penalizer = 0 := le_antisymm (not_lt.mp hpen0) hpen
    rw [if_neg hpen0, hpz]
    ring

/-- C1 counterexample: with breakpoints `[5]`, `penalizer = 1`, two
covariate columns, parameters `[0, 0, 1, 0]`, and the single observation
`(T, E, w, x) = (1, true, 1, [0, 0])`, the code returns `5/4` (penalty
`1/4 + 0`, the SUM of the two per-column variances) while the claim's
formula returns `9/8` (penalty `(1/4 + 0)/2`, their MEAN). -/
theorem C1_counterexample :
    negative_log_likelihood [5] 1 2 [0, 0, 1, 0] [1] [true] [1] [[0, 0]] =
      5 / 4 ∧
    NLL_spec_claimed [5] 1 2 [0, 0, 1, 0] [1] [true] [1] [[0, 0]] = 9 / 8 ∧
    (5 / 4 : ℝ) ≠ 9 / 8 := by
  have hdot0 : dot [0, 0] (paramSlice [0, 0, 1, 0] 2 0) = 0 := by
    norm_num [dot, paramSlice]
  have hdot1 : dot [0, 0] (paramSlice [0, 0, 1, 0] 2 1) = 0 := by
    norm_num [dot, paramSlice]
  have hrate0 : segmentRate [0, 0, 1, 0] 2 0 [0, 0] = 1 := by
    rw [segmentRate, hdot0]
    simp
  have hrate1 : segmentRate [0, 0, 1, 0] 2 1 [0, 0] = 1 := by
    rw [segmentRate, hdot1]
    simp
  have hseg : activeSegmentIndex [5] 1 = 0 := by
    unfold activeSegmentIndex
    have h51 : ¬ ((5 : ℝ) < 1) := by norm_num
    simp [h51]
  have hhaz : hazard [5] [0, 0, 1, 0] 2 1 [0, 0] = 1 := by
    unfold hazard
    rw [hseg, hrate0]
  have hmax : max (hazard [5] [0, 0, 1, 0] 2 1 [0, 0]) 1e-20 = 1 := by
    rw [hhaz, max_eq_left (by norm_num)]
  have hexpos : exposures [5] 1 = [1, 0] := by
    unfold exposures
    simp only [List.map_cons, List.map_nil, List.cons_append, List.nil_append]
    rw [show min (5 : ℝ) 1 = 1 from by norm_num]
    norm_num
  have hrates : ratesRow [0, 0, 1, 0] 2 2 [0, 0] = [1, 1] := by
    unfold ratesRow
    rw [show List.range 2 = [0, 1] from rfl]
    simp [hrate0, hrate1]
  have hH : cumulative_hazard_at [5] [0, 0, 1, 0] 2 1 [0, 0] = 1 := by
    unfold cumulative_hazard_at
    rw [show ([5] : List ℝ).length + 1 = 2 from rfl, hexpos, hrates]
    norm_num
  have hvarA : listVar [0, 1] = 1 / 4 := by
    unfold listVar
    norm_num
  have hvarB : listVar [0, 0] = 0 := by
    unfold listVar
    norm_num
  have hpenalty : coefPenalty [0, 0, 1, 0] 2 = 1 / 4 := by
    unfold coefPenalty
    rw [show List.range 2 = [0, 1] from rfl]
    simp only [List.map_cons, List.map_nil, List.sum_cons, List.sum_nil]
    rw [show List.drop 0 [(0 : ℝ), 0, 1, 0] = [0, 0, 1, 0] from rfl,
      show List.drop 1 [(0 : ℝ), 0, 1, 0] = [0, 1, 0] from rfl]
    rw [show everyNth 2 [(0 : ℝ), 0, 1, 0] = [0, 1] from by
        simp [everyNth],
      show everyNth 2 [(0 : ℝ), 1, 0] = [0, 0] from by
        simp [everyNth]]
    rw [hvarA, hvarB]
    norm_num
  refine ⟨?_, ?_, by norm_num⟩
  · unfold negative_log_likelihood cumulative_hazard
    rw [show ([5] : List ℝ).length + 1 = 2 from rfl]
    simp only [maskFilter, if_true, List.zip_cons_cons, List.zip_nil_right,
      List.map_cons, List.map_nil, List.zipWith_cons_cons, List.zipWith_nil_right,
      List.sum_cons, List.sum_nil, log_hazard, hmax, Real.log_one,
      hexpos, hrates]
    rw [if_pos (by norm_num : (0 : ℝ) < 1), hpenalty]
    norm_num
  · simp only [NLL_spec_claimed, mean_segment_variance, paramColumn]
    rw [show ([(1 : ℝ)]).length = 1 from rfl,
      show List.range 1 = [0] from rfl,
      show ([5] : List ℝ).length + 1 = 2 from rfl,
      show List.range 2 = [0, 1] from rfl]
    simp only [List.map_cons, List.map_nil, List.sum_cons, List.sum_nil]
    rw [show ([true] : List Bool).getD 0 false = true from rfl, if_pos rfl]
    rw [show ((0 : ℕ) * 2 + 0) = 0 from rfl, show ((1 : ℕ) * 2 + 0) = 2 from rfl,
      show ((0 : ℕ) * 2 + 1) = 1 from rfl, show ((1 : ℕ) * 2 + 1) = 3 from rfl]
    rw [show ([(0 : ℝ), 0, 1, 0]).getD 0 0 = 0 from rfl,
      show ([(0 : ℝ), 0, 1, 0]).getD 2 0 = 1 from rfl,
      show ([(0 : ℝ), 0, 1, 0]).getD 1 0 = 0 from rfl,
      show ([(0 : ℝ), 0, 1, 0]).getD 3 0 = 0 from rfl]
    rw [show ([(1 : ℝ)]).getD 0 0 = 1 from rfl,
      show ([[(0 : ℝ), 0]]).getD 0 [] = [0, 0] from rfl]
    rw [hhaz, Real.log_one, hH, hvarA, hvarB]
    norm_num

/-- Witness for C1 at the counterexample's data: the hypotheses hold and the
code agrees with the amended formula there. -/
theorem C1_nll_refines_amended_spec_witness :
    ([(0 : ℝ), 0, 1, 0]).length = (([5] : List ℝ).length + 1) * 2 ∧
    (0 : ℝ) ≤ 1 ∧
    negative_log_likelihood [5] 1 2 [0, 0, 1, 0] [1] [true] [1] [[0, 0]] =
      NLL_spec_amended [5] 1 2 [0, 0, 1, 0] [1] [true] [1] [[0, 0]] :=
  ⟨rfl, by norm_num,
    C1_nll_refines_amended_spec [5] 1 2 [0, 0, 1, 0] [1] [true] [1] [[0, 0]]
      rfl rfl rfl rfl (by norm_num) (by norm_num)⟩

-- ## C4: the single-segment closed-form MLE

theorem log_hazard_single (b t : ℝ) :
    log_hazard [] [b] 1 t [1] =
      Real.log (max (Real.exp (-b)) 1e-20) := by
  unfold log_hazard hazard activeSegmentIndex segmentRate paramSlice dot
  simp

theorem maskFilter_mem_of_mem {α : Type} :
    ∀ (E : List Bool) (l : List α) (a : α), a ∈ maskFilter l E → a ∈ l := by
  intro E
  induction E with
  | nil => intro l a ha; cases l <;> simp [maskFilter] at ha
  | cons e E ih =>
    intro l a ha
    cases l with
    | nil => simp [maskFilter] at ha
    | cons x l' =>
      cases e with
      | false => exact List.mem_cons_of_mem _ (ih l' a (by simpa [maskFilter] using ha))
      | true =>
        rcases List.mem_cons.mp (by simpa [maskFilter] using ha) with rfl | h2
        · exact List.mem_cons_self _ _
        · exact List.mem_cons_of_mem _ (ih l' a h2)

theorem event_term_single (b : ℝ) :
    ∀ (E : List Bool) (T W : List ℝ),
      T.length = E.length → W.length = E.length →
      (List.zipWith (fun w p => w * log_hazard [] [b] 1 p.1 p.2)
        (maskFilter W E)
        ((maskFilter T E).zip (maskFilter (List.replicate T.length ([1] : List ℝ)) E))).sum =
      weightedEventSum W E * Real.log (max (Real.exp (-b)) 1e-20) := by
  intro E
  induction E with
  | nil =>
    intro T W hT hW
    rw [List.length_eq_zero.mp hT, List.length_eq_zero.mp hW]
    simp [maskFilter, weightedEventSum]
  | cons e E ih =>
    intro T W hT hW
    cases T with
    | nil => simp at hT
    | cons t T' =>
      cases W with
      | nil => simp at hW
      | cons w W' =>
        have hT' : T'.length = E.length := by simpa using hT
        have hW' : W'.length = E.length := by simpa using hW
        have hrepl : List.replicate (t :: T').length ([1] : List ℝ) =
            [1] :: List.replicate T'.length [1] := by
          rw [List.length_cons, List.replicate_succ]
        rw [hrepl]
        cases e with
        | false =>
          show (List.zipWith _ (maskFilter W' E)
            ((maskFilter T' E).zip (maskFilter (List.replicate T'.length [1]) E))).sum = _
          rw [ih T' W' hT' hW']
          rfl
        | true =>
          show (w * log_hazard [] [b] 1 t [1] +
            (List.zipWith _ (maskFilter W' E)
              ((maskFilter T' E).zip
                (maskFilter (List.replicate T'.length [1]) E))).sum) = _
          rw [ih T' W' hT' hW', log_hazard_single]
          simp only [weightedEventSum, maskFilter, if_pos, List.sum_cons]
          ring

theorem cum_term_single (b : ℝ) :
    ∀ (T W : List ℝ), W.length = T.length →
      (List.zipWith (fun w row => (row.map (fun v => w * v)).sum)
        W (cumulative_hazard [] [b] 1 T (List.replicate T.length [1]))).sum =
      weightedDurationSum T W * Real.exp (-b) := by
  intro T
  induction T with
  | nil =>
    intro W hW
    have hWnil : W = [] := List.eq_nil_of_length_eq_zero (by simpa using hW)
    subst hWnil
    simp [cumulative_hazard, weightedDurationSum]
  | cons t T' ih =>
    intro W hW
    cases W with
    | nil => simp at hW
    | cons w W' =>
      have hW' : W'.length = T'.length := by simpa using hW
      have hrow : cumulative_hazard [] [b] 1 (t :: T')
          (List.replicate (t :: T').length [1]) =
          [t * Real.exp (-b)] ::
            cumulative_hazard [] [b] 1 T' (List.replicate T'.length [1]) := by
        rw [List.length_cons, List.replicate_succ]
        unfold cumulative_hazard
        rw [List.zip_cons_cons, List.map_cons]
        congr 1
        unfold exposures ratesRow segmentRate paramSlice dot
        rw [show ([] : List ℝ).length + 1 = 1 from rfl,
          show List.range 1 = [0] from rfl]
        simp
      rw [hrow]
      show w * (t * Real.exp (-b)) + 0 +
          (List.zipWith _ W' (cumulative_hazard [] [b] 1 T'
            (List.replicate T'.length [1]))).sum = _
      rw [ih W' hW']
      unfold weightedDurationSum
      rw [List.zipWith_cons_cons, List.sum_cons]
      ring

theorem nll_single_segment (b : ℝ) (T W : List ℝ) (E : List Bool)
    (hE : E.length = T.length) (hW : W.length = T.length) :
    negative_log_likelihood [] 0 1 [b] T E W (List.replicate T.length [1]) =
      -((weightedEventSum W E * Real.log (max (Real.exp (-b)) 1e-20) -
         weightedDurationSum T W * Real.exp (-b)) / W.sum) := by
  unfold negative_log_likelihood
  rw [event_term_single b E T W hE.symm (hW.trans hE.symm),
    cum_term_single b T W hW, if_neg (lt_irrefl (0 : ℝ))]
  ring

/-- C4: fitting the model with zero breakpoints and an intercept-only
covariate matrix, the objective minimized by `_fit_model` attains its global
minimum at the parameter whose hazard rate is
`Σ(events·weights) / Σ(durations·weights)` (closed-form exponential MLE).
The hypotheses require at least one observed event and rule out the
degenerate regime in which the event rate is below the `1e-20` hazard
clipping floor (where the likelihood has no minimizer). -/
theorem C4_single_segment_mle (T W : List ℝ) (E : List Bool)
    (hE : E.length = T.length) (hW : W.length = T.length)
    (hA : 0 < weightedEventSum W E)
    (hB : 0 < weightedDurationSum T W)
    (hS : 0 < W.sum)
    (hclip : Real.exp 1 * 1e-20 * weightedDurationSum T W ≤
      weightedEventSum W E) :
    (∀ b : ℝ,
      negative_log_likelihood [] 0 1
        [Real.log (weightedDurationSum T W / weightedEventSum W E)] T E W
        (List.replicate T.length [1]) ≤
      negative_log_likelihood [] 0 1 [b] T E W
        (List.replicate T.length [1])) ∧
    Real.exp (-Real.log (weightedDurationSum T W / weightedEventSum W E)) =
      weightedEventSum W E / weightedDurationSum T W := by
  set A := weightedEventSum W E with hAdef
  set B := weightedDurationSum T W with hBdef
  have hexpstar : Real.exp (-Real.log (B / A)) = A / B := by
    rw [← Real.log_inv, inv_div, Real.exp_log (div_pos hA hB)]
  have hone_lt_e : (1 : ℝ) < Real.exp 1 := by
    have := Real.exp_one_gt_d9
    linarith
  have hεA : (1e-20 : ℝ) ≤ A / B := by
    rw [le_div_iff₀ hB]
    nlinarith
  have hL : Real.log (1e-20 : ℝ) + 1 ≤ Real.log (A / B) := by
    have h1 : Real.exp 1 * 1e-20 ≤ A / B := by
      rw [le_div_iff₀ hB]
      exact hclip
    have h2 : Real.log (Real.exp 1 * 1e-20) ≤ Real.log (A / B) :=
      Real.log_le_log (by positivity) h1
    rw [Real.log_mul (by positivity) (by norm_num), Real.log_exp] at h2
    linarith
  have key : ∀ u : ℝ, 1 ≤ u + Real.exp (-u) := by
    intro u
    have := Real.add_one_le_exp (-u)
    linarith
  refine ⟨?_, hexpstar⟩
  intro b
  rw [nll_single_segment (Real.log (B / A)) T W E hE hW,
    nll_single_segment b T W E hE hW, ← hAdef, ← hBdef, hexpstar,
    max_eq_left hεA, mul_div_cancel₀ A (ne_of_gt hB), neg_le_neg_iff,
    div_le_div_iff_of_pos_right hS]
  by_cases hb : (1e-20 : ℝ) ≤ Real.exp (-b)
  · rw [max_eq_left hb, Real.log_exp]
    have hBe : B * Real.exp (-b) =
        A * Real.exp (-(b + Real.log (A / B))) := by
      rw [neg_add, Real.exp_add,
        show Real.exp (-Real.log (A / B)) = B / A from by
          rw [← Real.log_inv, inv_div, Real.exp_log (div_pos hB hA)]]
      field_simp
      ring
    have hkey := key (b + Real.log (A / B))
    have hAnn : 0 ≤ A * ((b + Real.log (A / B)) +
        Real.exp (-(b + Real.log (A / B))) - 1) :=
      mul_nonneg hA.le (by linarith)
    nlinarith [hBe, hAnn]
  · push_neg at hb
    rw [max_eq_right hb.le]
    have h1 : 0 < B * Real.exp (-b) := mul_pos hB (Real.exp_pos _)
    have h2 : A * Real.log (1e-20 : ℝ) ≤ A * (Real.log (A / B) - 1) :=
      mul_le_mul_of_nonneg_left (by linarith) hA.le
    nlinarith [h1, h2]

/-- Witness for C4 at durations `[5, 3, 9]`, events `[1, 1, 0]`, unit
weights: the minimizing hazard rate is `2/17`. -/
theorem C4_single_segment_mle_witness :
    (0 : ℝ) < weightedEventSum [1, 1, 1] [true, true, false] ∧
    Real.exp 1 * 1e-20 * weightedDurationSum [5, 3, 9] [1, 1, 1] ≤
      weightedEventSum [1, 1, 1] [true, true, false] ∧
    negative_log_likelihood [] 0 1
      [Real.log (weightedDurationSum [5, 3, 9] [1, 1, 1] /
        weightedEventSum [1, 1, 1] [true, true, false])]
      [5, 3, 9] [true, true, false] [1, 1, 1]
      (List.replicate ([5, 3, 9] : List ℝ).length [1]) ≤
    negative_log_likelihood [] 0 1 [0] [5, 3, 9] [true, true, false] [1, 1, 1]
      (List.replicate ([5, 3, 9] : List ℝ).length [1]) ∧
    Real.exp (-Real.log (weightedDurationSum [5, 3, 9] [1, 1, 1] /
      weightedEventSum [1, 1, 1] [true, true, false])) = 2 / 17 := by
  have hAval : weightedEventSum [(1 : ℝ), 1, 1] [true, true, false] = 2 := by
    norm_num [weightedEventSum, maskFilter]
  have hBval : weightedDurationSum [(5 : ℝ), 3, 9] [1, 1, 1] = 17 := by
    norm_num [weightedDurationSum]
  have hA : (0 : ℝ) < weightedEventSum [1, 1, 1] [true, true, false] := by
    rw [hAval]
    norm_num
  have hB : (0 : ℝ) < weightedDurationSum [5, 3, 9] [1, 1, 1] := by
    rw [hBval]
    norm_num
  have hS : (0 : ℝ) < ([1, 1, 1] : List ℝ).sum := by norm_num
  have hclip : Real.exp 1 * 1e-20 * weightedDurationSum [5, 3, 9] [1, 1, 1] ≤
      weightedEventSum [1, 1, 1] [true, true, false] := by
    rw [hAval, hBval]
    nlinarith [Real.exp_one_lt_d9, Real.exp_pos 1]
  have hthm := C4_single_segment_mle [5, 3, 9] [1, 1, 1] [true, true, false]
    rfl rfl hA hB hS hclip
  refine ⟨hA, hclip, hthm.1 0, ?_⟩
  rw [hthm.2, hAval, hBval]
